import Mathlib

/-!
# Verification of the lock-in-bot check-in logic (`src/bot.py`)

Shallow embedding of the core logic of the Discord habit-tracker bot:
the catalog, the two-step check-in interaction (`checkin`), the
database load/save layer (`load_user_data` / `save_user_data`,
mirroring the `checkins` table with its UNIQUE constraint), the
`mycheckins` read command, and the delete-by-date store operation
described by the specification.

Modelling conventions:
* Python dictionaries are association lists preserving insertion order
  (new keys are appended at the end, as CPython dicts do).
* Python dictionary keys may mix `int` and `str`; `PyKey` mirrors this,
  with `int` keys never equal to `str` keys (as in Python).
* The database `checkins` table is a `List Row`; `created_at` is an
  integer insertion index, and the UNIQUE constraint on
  (user_id, checkin_date, category, activity) is realised by the
  conflict check in `insertRow` (`ON CONFLICT ... DO NOTHING`).
* Calendar dates are the `YYYY-MM-DD` strings the program works with;
  their lexicographic order agrees with chronological order.
* A `wait_for` that times out is modelled by the reply being `none`;
  an unavailable database connection by the connection being `none`.
  Exceptions escaping a `try` block are modelled with `Option`.
-/

namespace LockInBot

/-- A row of the `checkins` table (the columns the program reads),
with `created_at` as an integer insertion index standing for the SQL
timestamp. -/
structure Row where
  user_id : Int
  checkin_date : String
  category : String
  activity : String
  created_at : Int
deriving DecidableEq, Repr

/-- A Python dictionary key, which may be an `int` or a `str`; in
Python an `int` key never compares equal to a `str` key. -/
inductive PyKey where
  | pint : Int → PyKey
  | pstr : String → PyKey
deriving DecidableEq, Repr

/-- Conversion `int(key)` as applied by `save_user_data`; on data produced by this
program the `str` case always holds a decimal integer. -/
def PyKey.toIntD : PyKey → Int
  | .pint i => i
  | .pstr s => (s.toInt?).getD 0

/-- Dictionary created per date by `load_user_data` and `checkin`,
holding one activity list under each of the keys `mental`, `physical`
and `professional`. -/
structure DateEntry where
  mental : List String
  physical : List String
  professional : List String
deriving DecidableEq, Repr

def emptyEntry : DateEntry := ⟨[], [], []⟩

/-- Per-user map from date string to the activities of that day
(a Python dict in insertion order). -/
abbrev DateMap := List (String × DateEntry)

/-- The full in-memory structure `user_data` (a Python dict in
insertion order, keyed by `int` or `str` user ids). -/
abbrev UserData := List (PyKey × DateMap)

/-! ## The static catalog `checklist_categories` -/

/-- The category keys of `checklist_categories`, in dict order. -/
def catKeys : List String := ["mental", "physical", "professional"]

/-- Display name of a category, as stored in `checklist_categories`. -/
def catName (k : String) : String :=
  if k = "mental" then "Mental & Spiritual"
  else if k = "physical" then "Physical & Health"
  else if k = "professional" then "Professional & Learning"
  else ""

/-- Activity list of a category, as stored in `checklist_categories`. -/
def activitiesOf (k : String) : List String :=
  if k = "mental" then
    ["Prayed Fajr", "Prayed Dhur", "Prayed Asr", "Prayed Maghrib",
     "Prayed Isha", "Read Quran"]
  else if k = "physical" then
    ["Went on a walk", "Gym workout", "Other form of workout",
     "Slept 8 hours"]
  else if k = "professional" then
    ["LeetCode", "Side project", "Resume work", "YouTube learning",
     "Read a book"]
  else []

/-! ## Association-list operations mirroring Python dict mutation -/

/-- Look a key up in a dict (`d[k]` guarded by `k in d`). -/
def lookupA {α β : Type} [DecidableEq α] : List (α × β) → α → Option β
  | [], _ => none
  | (k', v) :: rest, k => if k = k' then some v else lookupA rest k

/-- Python update `if k not in d: d[k] = dflt` followed by applying
`f` to the entry, where `f`
may raise (`none`); new keys are appended at the end as in CPython. -/
def updA {α β : Type} [DecidableEq α]
    (l : List (α × β)) (k : α) (d : β) (f : β → Option β) :
    Option (List (α × β)) :=
  match l with
  | [] => (f d).map (fun v => [(k, v)])
  | (k', v) :: rest =>
    if k = k' then (f v).map (fun v' => (k', v') :: rest)
    else (updA rest k d f).map (fun r => (k', v) :: r)

/-- As `updA` but with an update that cannot raise. -/
def updT {α β : Type} [DecidableEq α]
    (l : List (α × β)) (k : α) (d : β) (f : β → β) : List (α × β) :=
  match l with
  | [] => [(k, f d)]
  | (k', v) :: rest =>
    if k = k' then (k', f v) :: rest else (k', v) :: updT rest k d f

/-- Python append `if a not in l: l.append(a)`. -/
def addIfAbsent (l : List String) (a : String) : List String :=
  if a ∈ l then l else l ++ [a]

/-! ## `load_user_data` (src/bot.py lines 79-126) -/

/-- The append of line 117 into the per-date dictionary, guarded by the
membership test of line 116; indexing a category that is not one of the
three fixed keys raises `KeyError` (`none`). -/
def DateEntry.addActivity (e : DateEntry) (cat act : String) :
    Option DateEntry :=
  if cat = "mental" then some { e with mental := addIfAbsent e.mental act }
  else if cat = "physical" then
    some { e with physical := addIfAbsent e.physical act }
  else if cat = "professional" then
    some { e with professional := addIfAbsent e.professional act }
  else none

/-- One iteration of the grouping loop of lines 100-117.  The user key
is the row user id converted with `str(...)`. -/
def addRow (ud : UserData) (r : Row) : Option UserData :=
  updA ud (PyKey.pstr (toString r.user_id)) [] (fun dm =>
    updA dm r.checkin_date emptyEntry (fun e =>
      e.addActivity r.category r.activity))

/-- The whole grouping loop; the first `KeyError` aborts it
(`none` = the exception reaching the `except` handler). -/
def groupRows : UserData → List Row → Option UserData
  | ud, [] => some ud
  | ud, r :: rs =>
    match addRow ud r with
    | none => none
    | some ud' => groupRows ud' rs

/-- The `ORDER BY checkin_date DESC, created_at ASC` relation of the
SQL query (dates compared as `YYYY-MM-DD` strings). -/
def rowLE (a b : Row) : Prop :=
  b.checkin_date < a.checkin_date ∨
    (a.checkin_date = b.checkin_date ∧ a.created_at ≤ b.created_at)

instance : DecidableRel rowLE := fun a b => by
  unfold rowLE; infer_instance

instance : IsTotal Row rowLE := by
  constructor
  intro a b
  rcases lt_trichotomy a.checkin_date b.checkin_date with h | h | h
  · exact Or.inr (Or.inl h)
  · rcases le_total a.created_at b.created_at with h2 | h2
    · exact Or.inl (Or.inr ⟨h, h2⟩)
    · exact Or.inr (Or.inr ⟨h.symm, h2⟩)
  · exact Or.inl (Or.inl h)

instance : IsTrans Row rowLE := by
  constructor
  intro a b c hab hbc
  rcases hab with h1 | ⟨h1, h1'⟩
  · rcases hbc with h2 | ⟨h2, _⟩
    · exact Or.inl (h2.trans h1)
    · exact Or.inl (h2 ▸ h1)
  · rcases hbc with h2 | ⟨h2, h2'⟩
    · exact Or.inl (h1 ▸ h2)
    · exact Or.inr ⟨h1.trans h2, h1'.trans h2'⟩

/-- The result set of the SQL query: the stored rows sorted by
`checkin_date DESC, created_at ASC`. -/
def sqlOrder (rows : List Row) : List Row := List.insertionSort rowLE rows

/-- Function `load_user_data`: a `none` connection or any exception during
grouping yields the empty dict; otherwise the grouped data. -/
def load_user_data (conn : Option (List Row)) : UserData :=
  match conn with
  | none => []
  | some rows => (groupRows [] (sqlOrder rows)).getD []

/-! ## `save_user_data` (src/bot.py lines 129-165) and the table -/

/-- Test whether a stored row carries the given
(user, date, category, activity) tuple, ignoring `created_at`: the
columns of the UNIQUE constraint. -/
def rowMatches (u : Int) (d c a : String) (r : Row) : Bool :=
  r.user_id == u && r.checkin_date == d &&
    r.category == c && r.activity == a

/-- The statement `INSERT INTO checkins ... ON CONFLICT (user_id,
checkin_date, category, activity) DO NOTHING`; a fresh row records its
insertion index as `created_at`. -/
def insertRow (db : List Row) (u : Int) (d c a : String) : List Row :=
  if db.any (rowMatches u d c a) then db
  else db ++ [⟨u, d, c, a, Int.ofNat db.length⟩]

/-- Number of stored rows carrying a given
(user, date, category, activity) tuple. -/
def countTuple (db : List Row) (t : Int × String × String × String) : Nat :=
  (db.filter (rowMatches t.1 t.2.1 t.2.2.1 t.2.2.2)).length

/-- The UNIQUE constraint of the `checkins` table: at most one row per
tuple. -/
def DBWf (db : List Row) : Prop := ∀ t, countTuple db t ≤ 1

/-- The inner loops of `save_user_data` for one date of one user;
the per-date dict iterates its keys in insertion order
(`mental`, `physical`, `professional`). -/
def upsertEntry (db : List Row) (u : Int) (d : String) (e : DateEntry) :
    List Row :=
  let db1 := e.mental.foldl (fun db a => insertRow db u d "mental" a) db
  let db2 := e.physical.foldl (fun db a => insertRow db u d "physical" a) db1
  e.professional.foldl (fun db a => insertRow db u d "professional" a) db2

/-- All dates of one user. -/
def upsertUser (db : List Row) (u : Int) (dm : DateMap) : List Row :=
  dm.foldl (fun db p => upsertEntry db u p.1 p.2) db

/-- All users of the saved structure (user ids cast with `int(...)`). -/
def upsertAll (db : List Row) (ud : UserData) : List Row :=
  ud.foldl (fun db p => upsertUser db p.1.toIntD p.2) db

/-- Function `save_user_data`: reports `False` without a connection,
else commits the
upserts and report `True`. -/
def save_user_data (conn : Option (List Row)) (ud : UserData) :
    Bool × Option (List Row) :=
  match conn with
  | none => (false, none)
  | some db => (true, some (upsertAll db ud))

/-! ## Reply parsing (lines 208 and 256) -/

/-- Python `str.split()`: maximal runs of non-whitespace characters,
empty tokens discarded. -/
def tokensAux : List Char → List Char → List String
  | [], [] => []
  | [], acc => [⟨acc.reverse⟩]
  | c :: cs, acc =>
    if c.isWhitespace then
      match acc with
      | [] => tokensAux cs []
      | _ => (⟨acc.reverse⟩ : String) :: tokensAux cs []
    else tokensAux cs (c :: acc)

/-- Tokenisation `content.split()`. -/
def pyTokens (content : String) : List String := tokensAux content.data []

/-- Python `str.isdigit()` for the ASCII inputs at hand. -/
def pyIsDigit (s : String) : Bool := !s.data.isEmpty && s.data.all Char.isDigit

/-- Python `int(...)` on an all-digit token. -/
def pyTokenNat (s : String) : Nat :=
  s.data.foldl (fun n c => n * 10 + (c.toNat - 48)) 0

/-- Parsing `[int(x) for x in content.split() if x.isdigit()]`. -/
def parseNums (content : String) : List Nat :=
  ((pyTokens content).filter pyIsDigit).map pyTokenNat

/-! ## The `checkin` interaction (lines 187-315) -/

/-- The category-selection loop of lines 211-217: appends
`list(checklist_categories.keys())[num-1]` per parsed number in reply
order, aborting on the first out-of-range number (the error payload). -/
def selectCats : List Nat → Except Nat (List String)
  | [] => .ok []
  | n :: ns =>
    if 1 ≤ n ∧ n ≤ catKeys.length then
      match selectCats ns with
      | .ok rest => .ok ((catKeys.getD (n - 1) "") :: rest)
      | .error e => .error e
    else .error n

/-- The (category, activity) pairs enumerated by the nested loops of
lines 234-242, in the order of the selected keys. -/
def selPairs (selected : List String) : List (String × String) :=
  selected.flatMap (fun k => (activitiesOf k).map (fun a => (k, a)))

/-- Numbering a pair list from `display_number = n`. -/
def numberFrom : Nat → List (String × String) → List (Nat × String × String)
  | _, [] => []
  | n, p :: rest => (n, p.1, p.2) :: numberFrom (n + 1) rest

/-- The dict `activity_mapping` of lines 231-242: display numbers from
1 mapped to (category key, activity). -/
def activity_mapping (selected : List String) : List (Nat × String × String) :=
  numberFrom 1 (selPairs selected)

/-- Membership test `num in activity_mapping` plus the lookup
`activity_mapping[num]`. -/
def lookupNum (mapping : List (Nat × String × String)) (n : Nat) :
    Option (String × String) :=
  match lookupA (mapping.map (fun q => (q.1, (q.2.1, q.2.2)))) n with
  | some p => some p
  | none => none

/-- The activity-selection loop of lines 259-268: looks each parsed
number up in the mapping, aborting on the first absent number. -/
def selectActs (mapping : List (Nat × String × String)) :
    List Nat → Except Nat (List (String × String))
  | [] => .ok []
  | n :: ns =>
    match lookupNum mapping n with
    | some p =>
      match selectActs mapping ns with
      | .ok rest => .ok (p :: rest)
      | .error e => .error e
    | none => .error n

/-- Lines 297-302: append the activity only when the category is one of
the keys of the entry and the activity is not already present. -/
def DateEntry.addIfKnown (e : DateEntry) (cat act : String) : DateEntry :=
  if cat = "mental" then { e with mental := addIfAbsent e.mental act }
  else if cat = "physical" then
    { e with physical := addIfAbsent e.physical act }
  else if cat = "professional" then
    { e with professional := addIfAbsent e.professional act }
  else e

/-- Lines 285-302: ensure the (int-keyed) user entry and the entry of
the current date exist, then add each selected pair with the duplicate
check. -/
def addSelected (loaded : UserData) (uid : Int) (today : String)
    (sel : List (String × String)) : UserData :=
  updT loaded (PyKey.pint uid) [] (fun dm =>
    updT dm today emptyEntry (fun e0 =>
      sel.foldl (fun e p => e.addIfKnown p.1 p.2) e0))

/-- One summary line of lines 308-310. -/
def summaryLine (p : String × String) : String :=
  p.2 ++ " (" ++ catName p.1 ++ ")"

/-- The outbound messages of the `checkin` conversation. -/
inductive Msg where
  | categoryPrompt
  | activityPrompt (mapping : List (Nat × String × String))
  | outOfRangeCategory (n : Nat)
  | noValidCategories
  | invalidActivity (n : Nat)
  | noValidActivities
  | confirmation (date : String) (summary : List String)
  | timeoutNotice
deriving DecidableEq, Repr

/-- Observable outcome of one `checkin` invocation: the messages sent,
the argument handed to `save_user_data` (if it was reached), and the
database state afterwards. -/
structure FlowResult where
  msgs : List Msg
  saved : Option UserData
  db : Option (List Row)
deriving Repr

/-- The `checkin` command (lines 187-315).  `r1`/`r2` are the replies
to the two `wait_for` calls, `none` meaning `asyncio.TimeoutError`;
`conn` is the database connection state shared by the load and the
save.  On the success path the boolean returned by `save_user_data`
is dropped, exactly as line 305 drops it. -/
def checkinFlow (uid : Int) (today : String) (conn : Option (List Row))
    (r1 r2 : Option String) : FlowResult :=
  match r1 with
  | none => ⟨[.categoryPrompt, .timeoutNotice], none, conn⟩
  | some c1 =>
    match selectCats (parseNums c1) with
    | .error n => ⟨[.categoryPrompt, .outOfRangeCategory n], none, conn⟩
    | .ok sel =>
      if sel = [] then ⟨[.categoryPrompt, .noValidCategories], none, conn⟩
      else
        let mapping := activity_mapping sel
        match r2 with
        | none =>
          ⟨[.categoryPrompt, .activityPrompt mapping, .timeoutNotice],
            none, conn⟩
        | some c2 =>
          match selectActs mapping (parseNums c2) with
          | .error n =>
            ⟨[.categoryPrompt, .activityPrompt mapping,
              .invalidActivity n], none, conn⟩
          | .ok acts =>
            if acts = [] then
              ⟨[.categoryPrompt, .activityPrompt mapping,
                .noValidActivities], none, conn⟩
            else
              let loaded := load_user_data conn
              let ud1 := addSelected loaded uid today acts
              let res := save_user_data conn ud1
              ⟨[.categoryPrompt, .activityPrompt mapping,
                .confirmation today (acts.map summaryLine)],
                some ud1, res.2⟩

/-! ## The `mycheckins` command (lines 317-357) -/

/-- Descending sort: `sorted(keys, reverse=True)`. -/
def sortDesc (l : List String) : List String :=
  List.insertionSort (fun a b : String => b ≤ a) l

instance : IsTotal String (fun a b : String => b ≤ a) :=
  ⟨fun a b => le_total b a⟩

instance : IsTrans String (fun a b : String => b ≤ a) :=
  ⟨fun _ _ _ h1 h2 => le_trans h2 h1⟩

/-- The display block built for one date (lines 337-348). -/
def renderEntry (d : String) (e : DateEntry) : String :=
  let block := fun (k : String) (l : List String) =>
    if l = [] then ""
    else "  **" ++ catName k ++ ":**\n" ++
      String.join (l.map (fun a => "    • " ++ a ++ "\n"))
  "📅 **" ++ d ++ ":**\n" ++ block "mental" e.mental ++
    block "physical" e.physical ++ block "professional" e.professional ++ "\n"

/-- Lines 331-348: the ten most recent dates, newest first. -/
def renderCheckins (dm : DateMap) : String :=
  ((sortDesc (dm.map Prod.fst)).take 10).foldl
    (fun s d => s ++ renderEntry d ((lookupA dm d).getD emptyEntry)) ""

/-- What `mycheckins` sends back. -/
inductive MyCheckinsReply where
  | history (text : String)
  | noCheckins
deriving DecidableEq, Repr

/-- Behaviour of the `mycheckins` command: loads fresh data and looks
the integer id of the invoking user up in it (line 326). -/
def mycheckins (uid : Int) (conn : Option (List Row)) : MyCheckinsReply :=
  let ud := load_user_data conn
  match lookupA ud (PyKey.pint uid) with
  | some checkins =>
    if checkins = [] then .noCheckins
    else .history (renderCheckins checkins)
  | none => .noCheckins

/-! ## The delete operations (spec §4.2 and §6) -/

/-- Modelled from the spec: the repository revision containing the
`deletecheckin` command and the store operation `deleteByDate` is not
among the source files; per the spec, `deleteByDate(userId, date)`
removes every CheckinRecord for that exact (user, date) and returns 0
if none existed (not an error). -/
def deleteByDate (db : List Row) (uid : Int) (date : String) :
    List Row × Nat :=
  let hit := fun (r : Row) => r.user_id == uid && r.checkin_date == date
  (db.filter (fun r => !(hit r)), (db.filter hit).length)

/-- Modelled from the spec: the date list `deletecheckin` shows,
namely the dates of the invoking user, newest first. -/
def userDates (db : List Row) (uid : Int) : List String :=
  sortDesc (((db.filter (fun r => r.user_id == uid)).map
    (fun r => r.checkin_date)).dedup)

/-- Modelled from the spec: `deletecheckin` "accepts a 1-based
selection or a cancel keyword, deletes all records for the chosen date,
reports the count removed"; `none` is a cancelled or invalid
selection. -/
def deletecheckin (db : List Row) (uid : Int) (sel : Nat) :
    Option (List Row × Nat) :=
  let dates := userDates db uid
  if 1 ≤ sel ∧ sel ≤ dates.length then
    some (deleteByDate db uid (dates.getD (sel - 1) ""))
  else none


/-! ## Helper lemmas on the dictionary operations -/

theorem lookupA_eq_none {α β : Type} [DecidableEq α]
    (l : List (α × β)) (k : α) (h : ∀ p ∈ l, p.1 ≠ k) :
    lookupA l k = none := by
  induction l with
  | nil => rfl
  | cons p rest ih =>
    obtain ⟨k1, v1⟩ := p
    have hk : k ≠ k1 := fun he => h (k1, v1) (List.mem_cons_self _ _) he.symm
    simp only [lookupA, if_neg hk]
    exact ih fun q hq => h q (List.mem_cons_of_mem _ hq)

theorem updA_keys {α β : Type} [DecidableEq α]
    (l : List (α × β)) (k : α) (d : β) (f : β → Option β)
    (l' : List (α × β)) (h : updA l k d f = some l') :
    (k ∈ l.map Prod.fst ∧ l'.map Prod.fst = l.map Prod.fst) ∨
      (k ∉ l.map Prod.fst ∧ l'.map Prod.fst = l.map Prod.fst ++ [k]) := by
  induction l generalizing l' with
  | nil =>
    simp only [updA] at h
    cases hf : f d with
    | none => rw [hf] at h; simp at h
    | some v =>
      rw [hf] at h
      simp only [Option.map_some'] at h
      cases h
      simp
  | cons p rest ih =>
    obtain ⟨k1, v1⟩ := p
    by_cases hk : k = k1
    · subst hk
      simp only [updA, if_pos rfl] at h
      cases hf : f v1 with
      | none => rw [hf] at h; simp at h
      | some v =>
        rw [hf] at h
        simp only [Option.map_some'] at h
        cases h
        simp
    · simp only [updA, if_neg hk] at h
      cases hr : updA rest k d f with
      | none => rw [hr] at h; simp at h
      | some r' =>
        rw [hr] at h
        simp only [Option.map_some'] at h
        cases h
        rcases ih r' hr with ⟨hm, he⟩ | ⟨hm, he⟩
        · exact Or.inl ⟨List.mem_cons_of_mem _ hm, by simp [he]⟩
        · refine Or.inr ⟨?_, by simp [he]⟩
          intro hc
          rcases List.mem_cons.mp hc with hc | hc
          · exact hk hc
          · exact hm hc

theorem updA_values {α β : Type} [DecidableEq α] {P Q : β → Prop}
    (l : List (α × β)) (k : α) (d : β) (f : β → Option β)
    (l' : List (α × β)) (h : updA l k d f = some l')
    (hl : ∀ p ∈ l, P p.2)
    (hfd : ∀ v', f d = some v' → Q v')
    (hfm : ∀ v v', P v → f v = some v' → Q v')
    (hPQ : ∀ v, P v → Q v) :
    ∀ p ∈ l', Q p.2 := by
  induction l generalizing l' with
  | nil =>
    simp only [updA] at h
    cases hf : f d with
    | none => rw [hf] at h; simp at h
    | some v =>
      rw [hf] at h
      simp only [Option.map_some'] at h
      cases h
      intro p hp
      rcases List.mem_singleton.mp hp with rfl
      exact hfd v hf
  | cons p rest ih =>
    obtain ⟨k1, v1⟩ := p
    by_cases hk : k = k1
    · subst hk
      simp only [updA, if_pos rfl] at h
      cases hf : f v1 with
      | none => rw [hf] at h; simp at h
      | some v =>
        rw [hf] at h
        simp only [Option.map_some'] at h
        cases h
        intro q hq
        rcases List.mem_cons.mp hq with rfl | hq
        · exact hfm v1 v (hl (k, v1) (List.mem_cons_self _ _)) hf
        · exact hPQ _ (hl q (List.mem_cons_of_mem _ hq))
    · simp only [updA, if_neg hk] at h
      cases hr : updA rest k d f with
      | none => rw [hr] at h; simp at h
      | some r' =>
        rw [hr] at h
        simp only [Option.map_some'] at h
        cases h
        intro q hq
        rcases List.mem_cons.mp hq with rfl | hq
        · exact hPQ _ (hl (k1, v1) (List.mem_cons_self _ _))
        · exact ih r' hr (fun q hq => hl q (List.mem_cons_of_mem _ hq)) q hq

theorem updA_none {α β : Type} [DecidableEq α]
    (l : List (α × β)) (k : α) (d : β) (f : β → Option β)
    (hf : ∀ v, f v = none) : updA l k d f = none := by
  induction l with
  | nil => simp [updA, hf d]
  | cons p rest ih =>
    obtain ⟨k1, v1⟩ := p
    by_cases hk : k = k1
    · simp [updA, if_pos hk, hf v1]
    · simp [updA, if_neg hk, ih]

theorem updA_isSome {α β : Type} [DecidableEq α]
    (l : List (α × β)) (k : α) (d : β) (f : β → Option β)
    (hf : ∀ v, (f v).isSome) : (updA l k d f).isSome := by
  induction l with
  | nil =>
    simp only [updA]
    cases hfd : f d with
    | none => have := hf d; rw [hfd] at this; simp at this
    | some v => simp
  | cons p rest ih =>
    obtain ⟨k1, v1⟩ := p
    by_cases hk : k = k1
    · simp only [updA, if_pos hk]
      cases hfv : f v1 with
      | none => have := hf v1; rw [hfv] at this; simp at this
      | some v => simp
    · simp only [updA, if_neg hk]
      cases hr : updA rest k d f with
      | none => rw [hr] at ih; exact absurd ih (by simp)
      | some r' => simp

theorem updT_values {α β : Type} [DecidableEq α] {P : β → Prop}
    (l : List (α × β)) (k : α) (d : β) (f : β → β)
    (hl : ∀ p ∈ l, P p.2) (hfd : P (f d)) (hf : ∀ v, P v → P (f v)) :
    ∀ p ∈ updT l k d f, P p.2 := by
  induction l with
  | nil =>
    intro p hp
    simp only [updT] at hp
    rcases List.mem_singleton.mp hp with rfl
    exact hfd
  | cons q rest ih =>
    obtain ⟨k1, v1⟩ := q
    by_cases hk : k = k1
    · intro p hp
      simp only [updT, if_pos hk] at hp
      rcases List.mem_cons.mp hp with rfl | hp
      · exact hf v1 (hl (k1, v1) (List.mem_cons_self _ _))
      · exact hl p (List.mem_cons_of_mem _ hp)
    · intro p hp
      simp only [updT, if_neg hk] at hp
      rcases List.mem_cons.mp hp with rfl | hp
      · exact hl (k1, v1) (List.mem_cons_self _ _)
      · exact ih (fun q hq => hl q (List.mem_cons_of_mem _ hq)) p hp

theorem foldl_preserve {α β : Type} {P : β → Prop}
    (step : β → α → β) (h : ∀ b a, P b → P (step b a)) :
    ∀ (l : List α) (b : β), P b → P (l.foldl step b) := by
  intro l
  induction l with
  | nil => exact fun b hb => hb
  | cons a rest ih => exact fun b hb => ih (step b a) (h b a hb)

theorem addIfAbsent_nodup (l : List String) (a : String) (h : l.Nodup) :
    (addIfAbsent l a).Nodup := by
  unfold addIfAbsent
  by_cases ha : a ∈ l
  · rwa [if_pos ha]
  · rw [if_neg ha]
    simpa [List.nodup_append] using ⟨h, ha⟩

/-- Well-formedness of a per-date entry: no duplicated activity within
a category (each record appears once). -/
def EntryWF (e : DateEntry) : Prop :=
  e.mental.Nodup ∧ e.physical.Nodup ∧ e.professional.Nodup

theorem emptyEntry_wf : EntryWF emptyEntry := by
  refine ⟨?_, ?_, ?_⟩ <;> simp [emptyEntry]

theorem addActivity_wf (e : DateEntry) (c a : String) (e' : DateEntry)
    (hwf : EntryWF e) (h : e.addActivity c a = some e') : EntryWF e' := by
  obtain ⟨h1, h2, h3⟩ := hwf
  unfold DateEntry.addActivity at h
  by_cases hc1 : c = "mental"
  · rw [if_pos hc1] at h
    cases h
    exact ⟨addIfAbsent_nodup _ _ h1, h2, h3⟩
  · rw [if_neg hc1] at h
    by_cases hc2 : c = "physical"
    · rw [if_pos hc2] at h
      cases h
      exact ⟨h1, addIfAbsent_nodup _ _ h2, h3⟩
    · rw [if_neg hc2] at h
      by_cases hc3 : c = "professional"
      · rw [if_pos hc3] at h
        cases h
        exact ⟨h1, h2, addIfAbsent_nodup _ _ h3⟩
      · rw [if_neg hc3] at h
        cases h

theorem addIfKnown_wf (e : DateEntry) (c a : String) (hwf : EntryWF e) :
    EntryWF (e.addIfKnown c a) := by
  obtain ⟨h1, h2, h3⟩ := hwf
  unfold DateEntry.addIfKnown
  by_cases hc1 : c = "mental"
  · rw [if_pos hc1]
    exact ⟨addIfAbsent_nodup _ _ h1, h2, h3⟩
  · rw [if_neg hc1]
    by_cases hc2 : c = "physical"
    · rw [if_pos hc2]
      exact ⟨h1, addIfAbsent_nodup _ _ h2, h3⟩
    · rw [if_neg hc2]
      by_cases hc3 : c = "professional"
      · rw [if_pos hc3]
        exact ⟨h1, h2, addIfAbsent_nodup _ _ h3⟩
      · rw [if_neg hc3]
        exact ⟨h1, h2, h3⟩


/-! ## Invariants of the grouping loop of `load_user_data` -/

/-- Date keys of a per-user map, strictly descending (newest first). -/
def keysDesc (dm : DateMap) : Prop :=
  (dm.map Prod.fst).Pairwise (fun a b : String => b < a)

/-- Every date key dominates the dates of the rows still to process. -/
def dmBound (dm : DateMap) (rows : List Row) : Prop :=
  ∀ k ∈ dm.map Prod.fst, ∀ r ∈ rows, r.checkin_date ≤ k

/-- Invariant of one per-user map during the grouping loop. -/
def DMInv (rows : List Row) (dm : DateMap) : Prop :=
  keysDesc dm ∧ dmBound dm rows ∧ ∀ p ∈ dm, EntryWF p.2

/-- Invariant of the whole structure during the grouping loop. -/
def UDInv (rows : List Row) (ud : UserData) : Prop :=
  ∀ p ∈ ud, DMInv rows p.2

theorem DMInv_weaken (r : Row) (rs : List Row) (dm : DateMap)
    (h : DMInv (r :: rs) dm) : DMInv rs dm :=
  ⟨h.1, fun k hk r' hr' => h.2.1 k hk r' (List.mem_cons_of_mem _ hr'),
    h.2.2⟩

/-- Effect of one row on one per-user map: the invariant survives. -/
theorem inner_upd_inv (r : Row) (rs : List Row) (dm dm' : DateMap)
    (hr : ∀ r' ∈ rs, rowLE r r')
    (hdm : DMInv (r :: rs) dm)
    (h : updA dm r.checkin_date emptyEntry
      (fun e => e.addActivity r.category r.activity) = some dm') :
    DMInv rs dm' := by
  obtain ⟨hsort, hbound, hwf⟩ := hdm
  have hdate_rs : ∀ r' ∈ rs, r'.checkin_date ≤ r.checkin_date := by
    intro r' hr'
    rcases hr r' hr' with h1 | ⟨h1, _⟩
    · exact le_of_lt h1
    · exact le_of_eq h1.symm
  have hwf' : ∀ p ∈ dm', EntryWF p.2 := by
    refine updA_values (P := EntryWF) (Q := EntryWF) dm _ _ _ dm' h hwf
      ?_ ?_ (fun v hv => hv)
    · intro v' hv'
      exact addActivity_wf _ _ _ _ emptyEntry_wf hv'
    · intro v v' hv hv'
      exact addActivity_wf _ _ _ _ hv hv'
  rcases updA_keys dm _ _ _ dm' h with ⟨hmem, hkeys⟩ | ⟨hmem, hkeys⟩
  · refine ⟨?_, ?_, hwf'⟩
    · unfold keysDesc
      rw [hkeys]
      exact hsort
    · intro k hk r' hr'
      rw [hkeys] at hk
      exact hbound k hk r' (List.mem_cons_of_mem _ hr')
  · refine ⟨?_, ?_, hwf'⟩
    · unfold keysDesc
      rw [hkeys, List.pairwise_append]
      refine ⟨hsort, List.pairwise_singleton _ _, ?_⟩
      intro a ha b hb
      rcases List.mem_singleton.mp hb with rfl
      have hle : r.checkin_date ≤ a := hbound a ha r (List.mem_cons_self _ _)
      have hne : r.checkin_date ≠ a := fun he => hmem (by rw [he]; exact ha)
      exact lt_of_le_of_ne hle hne
    · intro k hk r' hr'
      rw [hkeys] at hk
      rcases List.mem_append.mp hk with hk | hk
      · exact hbound k hk r' (List.mem_cons_of_mem _ hr')
      · rcases List.mem_singleton.mp hk with rfl
        exact hdate_rs r' hr'

/-- Effect of one row on the whole structure. -/
theorem addRow_inv (r : Row) (rs : List Row) (ud ud' : UserData)
    (hr : ∀ r' ∈ rs, rowLE r r')
    (hud : UDInv (r :: rs) ud) (h : addRow ud r = some ud') :
    UDInv rs ud' := by
  have hdate_rs : ∀ r' ∈ rs, r'.checkin_date ≤ r.checkin_date := by
    intro r' hr'
    rcases hr r' hr' with h1 | ⟨h1, _⟩
    · exact le_of_lt h1
    · exact le_of_eq h1.symm
  refine updA_values (P := DMInv (r :: rs)) (Q := DMInv rs) ud _ _ _ ud' h
    hud ?_ ?_ (DMInv_weaken r rs)
  · intro dm' hdm'
    simp only [updA] at hdm'
    cases he : emptyEntry.addActivity r.category r.activity with
    | none => rw [he] at hdm'; simp at hdm'
    | some e' =>
      rw [he] at hdm'
      simp only [Option.map_some'] at hdm'
      cases hdm'
      refine ⟨?_, ?_, ?_⟩
      · unfold keysDesc
        simp
      · intro k hk r' hr'
        simp only [List.map_cons, List.map_nil, List.mem_singleton] at hk
        subst hk
        exact hdate_rs r' hr'
      · intro p hp
        rcases List.mem_singleton.mp hp with rfl
        exact addActivity_wf _ _ _ _ emptyEntry_wf he
  · intro dm dm' hdm hupd
    exact inner_upd_inv r rs dm dm' hr hdm hupd

/-- The grouping loop establishes the final invariant. -/
theorem groupRows_inv (rows : List Row) :
    ∀ ud ud', rows.Pairwise rowLE → UDInv rows ud →
      groupRows ud rows = some ud' → UDInv [] ud' := by
  induction rows with
  | nil =>
    intro ud ud' _ hud h
    simp only [groupRows] at h
    cases h
    exact hud
  | cons r rs ih =>
    intro ud ud' hsorted hud h
    simp only [groupRows] at h
    cases ha : addRow ud r with
    | none => rw [ha] at h; simp at h
    | some ud1 =>
      rw [ha] at h
      exact ih ud1 ud' (List.Pairwise.of_cons hsorted)
        (addRow_inv r rs ud ud1
          (fun r' hr' => List.rel_of_pairwise_cons hsorted hr') hud ha) h

/-! ## Key shapes: the grouping only creates string keys -/

/-- Every user key of the structure is a `str` key. -/
def allPStr (ud : UserData) : Prop :=
  ∀ k ∈ ud.map Prod.fst, ∃ s, k = PyKey.pstr s

theorem addRow_pstr (ud ud' : UserData) (r : Row)
    (hud : allPStr ud) (h : addRow ud r = some ud') : allPStr ud' := by
  rcases updA_keys ud _ _ _ ud' h with ⟨_, hkeys⟩ | ⟨_, hkeys⟩
  · rw [allPStr, hkeys]
    exact hud
  · rw [allPStr, hkeys]
    intro k hk
    rcases List.mem_append.mp hk with hk | hk
    · exact hud k hk
    · rcases List.mem_singleton.mp hk with rfl
      exact ⟨toString r.user_id, rfl⟩

theorem groupRows_pstr (rows : List Row) (ud ud' : UserData)
    (hud : allPStr ud) (h : groupRows ud rows = some ud') : allPStr ud' := by
  induction rows generalizing ud with
  | nil =>
    simp only [groupRows] at h
    cases h
    exact hud
  | cons r rs ih =>
    simp only [groupRows] at h
    cases ha : addRow ud r with
    | none => rw [ha] at h; simp at h
    | some ud1 =>
      rw [ha] at h
      exact ih ud1 (addRow_pstr ud ud1 r hud ha) h

theorem load_pstr (conn : Option (List Row)) :
    allPStr (load_user_data conn) := by
  cases conn with
  | none => intro k hk; simp [load_user_data] at hk
  | some rows =>
    simp only [load_user_data]
    cases h : groupRows [] (sqlOrder rows) with
    | none => intro k hk; simp at hk
    | some ud' =>
      simp only [Option.getD_some]
      exact groupRows_pstr _ [] ud' (by intro k hk; simp at hk) h
/-! ## Category validity and the grouping failure mode -/

/-- The three fixed category identifiers the grouping dictionary knows. -/
def validCategory (c : String) : Prop :=
  c = "mental" ∨ c = "physical" ∨ c = "professional"

instance (c : String) : Decidable (validCategory c) := by
  unfold validCategory; infer_instance

theorem addActivity_none_of_bad (e : DateEntry) (c a : String)
    (hc : ¬ validCategory c) : e.addActivity c a = none := by
  unfold DateEntry.addActivity
  rw [if_neg (fun h => hc (Or.inl h)),
    if_neg (fun h => hc (Or.inr (Or.inl h))),
    if_neg (fun h => hc (Or.inr (Or.inr h)))]

theorem addActivity_isSome_of_valid (e : DateEntry) (c a : String)
    (hc : validCategory c) : (e.addActivity c a).isSome := by
  unfold DateEntry.addActivity
  rcases hc with h | h | h
  · rw [if_pos h]; rfl
  · by_cases h1 : c = "mental"
    · rw [if_pos h1]; rfl
    · rw [if_neg h1, if_pos h]; rfl
  · by_cases h1 : c = "mental"
    · rw [if_pos h1]; rfl
    · by_cases h2 : c = "physical"
      · rw [if_neg h1, if_pos h2]; rfl
      · rw [if_neg h1, if_neg h2, if_pos h]; rfl

theorem addRow_none_of_bad (ud : UserData) (r : Row)
    (hc : ¬ validCategory r.category) : addRow ud r = none := by
  unfold addRow
  apply updA_none
  intro dm
  apply updA_none
  intro e
  exact addActivity_none_of_bad e _ _ hc

theorem addRow_isSome_of_valid (ud : UserData) (r : Row)
    (hc : validCategory r.category) : (addRow ud r).isSome := by
  unfold addRow
  apply updA_isSome
  intro dm
  apply updA_isSome
  intro e
  exact addActivity_isSome_of_valid e _ _ hc

theorem groupRows_none_of_bad (rows : List Row) :
    ∀ ud, (∃ r ∈ rows, ¬ validCategory r.category) →
      groupRows ud rows = none := by
  induction rows with
  | nil =>
    intro ud h
    rcases h with ⟨r, hr, _⟩
    simp at hr
  | cons r rs ih =>
    intro ud h
    by_cases hc : validCategory r.category
    · have hbad : ∃ r' ∈ rs, ¬ validCategory r'.category := by
        rcases h with ⟨r', hr', hc'⟩
        rcases List.mem_cons.mp hr' with rfl | hr'
        · exact absurd hc hc'
        · exact ⟨r', hr', hc'⟩
      simp only [groupRows]
      cases ha : addRow ud r with
      | none => rfl
      | some ud1 => exact ih ud1 hbad
    · simp only [groupRows, addRow_none_of_bad ud r hc]

/-! ## The category-selection step -/

theorem selectCats_ok_of_valid (nums : List Nat)
    (h : ∀ n ∈ nums, 1 ≤ n ∧ n ≤ catKeys.length) :
    selectCats nums = .ok (nums.map (fun n => catKeys.getD (n - 1) "")) := by
  induction nums with
  | nil => rfl
  | cons n ns ih =>
    have hn := h n (List.mem_cons_self _ _)
    simp only [selectCats, if_pos hn,
      ih (fun m hm => h m (List.mem_cons_of_mem _ hm)), List.map_cons]

theorem selectCats_error_of_bad (nums : List Nat)
    (h : ∃ n ∈ nums, ¬ (1 ≤ n ∧ n ≤ catKeys.length)) :
    ∃ m, m ∈ nums ∧ ¬ (1 ≤ m ∧ m ≤ catKeys.length) ∧
      selectCats nums = .error m := by
  induction nums with
  | nil =>
    rcases h with ⟨n, hn, _⟩
    simp at hn
  | cons n ns ih =>
    by_cases hn : 1 ≤ n ∧ n ≤ catKeys.length
    · have hbad : ∃ m ∈ ns, ¬ (1 ≤ m ∧ m ≤ catKeys.length) := by
        rcases h with ⟨m, hm, hmb⟩
        rcases List.mem_cons.mp hm with rfl | hm
        · exact absurd hn hmb
        · exact ⟨m, hm, hmb⟩
      rcases ih hbad with ⟨m, hm, hmb, herr⟩
      refine ⟨m, List.mem_cons_of_mem _ hm, hmb, ?_⟩
      simp only [selectCats, if_pos hn, herr]
    · refine ⟨n, List.mem_cons_self _ _, hn, ?_⟩
      simp only [selectCats, if_neg hn]

/-! ## The numbering of the activity mapping -/

theorem numberFrom_fst (l : List (String × String)) :
    ∀ n, (numberFrom n l).map Prod.fst = List.range' n l.length := by
  induction l with
  | nil => intro n; rfl
  | cons p rest ih =>
    intro n
    simp only [numberFrom, List.map_cons, List.length_cons, List.range'_succ]
    rw [ih (n + 1)]

theorem numberFrom_snd (l : List (String × String)) :
    ∀ n, (numberFrom n l).map Prod.snd = l := by
  induction l with
  | nil => intro n; rfl
  | cons p rest ih =>
    intro n
    simp only [numberFrom, List.map_cons, ih (n + 1)]

theorem selPairs_length (sel : List String) :
    (selPairs sel).length =
      (sel.map (fun k => (activitiesOf k).length)).sum := by
  induction sel with
  | nil => rfl
  | cons k rest ih =>
    simp only [selPairs, List.flatMap_cons, List.length_append,
      List.length_map, List.map_cons, List.sum_cons]
    rw [← ih]
    rfl
/-! ## The activity-selection step -/

theorem selectActs_length (mapping : List (Nat × String × String)) :
    ∀ nums acts, selectActs mapping nums = .ok acts →
      acts.length = nums.length := by
  intro nums
  induction nums with
  | nil =>
    intro acts h
    simp only [selectActs] at h
    cases h
    rfl
  | cons n ns ih =>
    intro acts h
    simp only [selectActs] at h
    cases hl : lookupNum mapping n with
    | none => rw [hl] at h; cases h
    | some p =>
      rw [hl] at h
      cases hr : selectActs mapping ns with
      | error e => rw [hr] at h; cases h
      | ok rest =>
        rw [hr] at h
        cases h
        simp [ih rest hr]

theorem selectActs_count (mapping : List (Nat × String × String)) :
    ∀ nums acts, selectActs mapping nums = .ok acts →
      ∀ n p, lookupNum mapping n = some p →
        nums.count n ≤ acts.count p := by
  intro nums
  induction nums with
  | nil =>
    intro acts h n p _
    simp only [selectActs] at h
    cases h
    simp
  | cons m ms ih =>
    intro acts h n p hnp
    simp only [selectActs] at h
    cases hl : lookupNum mapping m with
    | none => rw [hl] at h; cases h
    | some q =>
      rw [hl] at h
      cases hr : selectActs mapping ms with
      | error e => rw [hr] at h; cases h
      | ok rest =>
        rw [hr] at h
        cases h
        by_cases hmn : m = n
        · subst hmn
          have hq : q = p := by
            rw [hl] at hnp
            exact Option.some_injective _ hnp
          subst hq
          simp only [List.count_cons_self]
          have := ih rest hr m q hnp
          omega
        · rw [List.count_cons_of_ne (fun he => hmn he.symm)]
          calc ms.count n ≤ rest.count p := ih rest hr n p hnp
            _ ≤ (q :: rest).count p := List.count_le_count_cons p q rest

theorem count_map_le {α β : Type} [BEq α] [LawfulBEq α] [BEq β]
    [LawfulBEq β] (f : α → β) (l : List α) (a : α) :
    l.count a ≤ (l.map f).count (f a) := by
  induction l with
  | nil => simp
  | cons x xs ih =>
    by_cases hx : x = a
    · subst hx
      simp only [List.count_cons_self, List.map_cons, List.count_cons_self]
      omega
    · rw [List.count_cons_of_ne (fun he => hx he.symm), List.map_cons]
      calc xs.count a ≤ (xs.map f).count (f a) := ih
        _ ≤ (f x :: xs.map f).count (f a) := List.count_le_count_cons _ _ _

/-! ## The table upsert `insertRow` -/

theorem rowMatches_self (u : Int) (d c a : String) (m : Int) :
    rowMatches u d c a ⟨u, d, c, a, m⟩ = true := by
  simp [rowMatches]

theorem rowMatches_new (t : Int × String × String × String)
    (u : Int) (d c a : String) (m : Int) :
    rowMatches t.1 t.2.1 t.2.2.1 t.2.2.2 ⟨u, d, c, a, m⟩ = true ↔
      t = (u, d, c, a) := by
  obtain ⟨t1, t2, t3, t4⟩ := t
  simp only [rowMatches, Bool.and_eq_true, beq_iff_eq]
  constructor
  · rintro ⟨⟨⟨h1, h2⟩, h3⟩, h4⟩
    simp [h1, h2, h3, h4]
  · intro h
    cases h
    simp

theorem insertRow_extends (db : List Row) (u : Int) (d c a : String) :
    ∃ ext, insertRow db u d c a = db ++ ext := by
  unfold insertRow
  by_cases h : db.any (rowMatches u d c a)
  · exact ⟨[], by rw [if_pos h, List.append_nil]⟩
  · exact ⟨[⟨u, d, c, a, Int.ofNat db.length⟩], by rw [if_neg h]⟩

theorem insertRow_idem (db : List Row) (u : Int) (d c a : String) :
    insertRow (insertRow db u d c a) u d c a = insertRow db u d c a := by
  by_cases h : db.any (rowMatches u d c a)
  · unfold insertRow
    rw [if_pos h, if_pos h]
  · have h1 : insertRow db u d c a =
        db ++ [⟨u, d, c, a, Int.ofNat db.length⟩] := by
      unfold insertRow
      rw [if_neg h]
    rw [h1]
    unfold insertRow
    rw [if_pos]
    rw [List.any_append]
    simp [rowMatches_self]

theorem countTuple_insert_self (db : List Row) (u : Int) (d c a : String)
    (hwf : countTuple db (u, d, c, a) ≤ 1) :
    countTuple (insertRow db u d c a) (u, d, c, a) = 1 := by
  by_cases h : db.any (rowMatches u d c a)
  · have hs : insertRow db u d c a = db := by unfold insertRow; rw [if_pos h]
    rw [hs]
    rcases List.any_eq_true.mp h with ⟨r, hr, hm⟩
    have hpos : 0 < countTuple db (u, d, c, a) := by
      unfold countTuple
      rw [List.length_pos]
      intro hnil
      have : r ∈ List.filter (rowMatches u d c a) db :=
        List.mem_filter.mpr ⟨hr, hm⟩
      rw [hnil] at this
      simp at this
    omega
  · have hs : insertRow db u d c a =
        db ++ [⟨u, d, c, a, Int.ofNat db.length⟩] := by
      unfold insertRow; rw [if_neg h]
    have hzero : countTuple db (u, d, c, a) = 0 := by
      unfold countTuple
      rw [List.length_eq_zero, List.filter_eq_nil_iff]
      intro r hr
      intro hm
      exact h (List.any_eq_true.mpr ⟨r, hr, hm⟩)
    unfold countTuple at hzero ⊢
    rw [hs, List.filter_append, List.length_append, hzero]
    simp [rowMatches_self]

theorem countTuple_insert_other (db : List Row) (u : Int) (d c a : String)
    (t : Int × String × String × String) (ht : t ≠ (u, d, c, a)) :
    countTuple (insertRow db u d c a) t = countTuple db t := by
  by_cases h : db.any (rowMatches u d c a)
  · unfold insertRow
    rw [if_pos h]
  · have hs : insertRow db u d c a =
        db ++ [⟨u, d, c, a, Int.ofNat db.length⟩] := by
      unfold insertRow; rw [if_neg h]
    unfold countTuple
    rw [hs, List.filter_append, List.length_append]
    have : List.filter (rowMatches t.1 t.2.1 t.2.2.1 t.2.2.2)
        [⟨u, d, c, a, Int.ofNat db.length⟩] = [] := by
      rw [List.filter_eq_nil_iff]
      intro r hr
      rcases List.mem_singleton.mp hr with rfl
      intro hm
      exact ht ((rowMatches_new t u d c a _).mp hm)
    rw [this]
    simp

theorem insertRow_wf (db : List Row) (u : Int) (d c a : String)
    (hwf : DBWf db) : DBWf (insertRow db u d c a) := by
  intro t
  by_cases ht : t = (u, d, c, a)
  · subst ht
    rw [countTuple_insert_self db u d c a (hwf _)]
  · rw [countTuple_insert_other db u d c a t ht]
    exact hwf t

theorem upsertEntry_wf (db : List Row) (u : Int) (d : String)
    (e : DateEntry) (hwf : DBWf db) : DBWf (upsertEntry db u d e) := by
  unfold upsertEntry
  apply foldl_preserve _ (fun b x hb => insertRow_wf b u d "professional" x hb)
  apply foldl_preserve _ (fun b x hb => insertRow_wf b u d "physical" x hb)
  apply foldl_preserve _ (fun b x hb => insertRow_wf b u d "mental" x hb)
  exact hwf

theorem upsertUser_wf (db : List Row) (u : Int) (dm : DateMap)
    (hwf : DBWf db) : DBWf (upsertUser db u dm) := by
  unfold upsertUser
  exact foldl_preserve _
    (fun b p hb => upsertEntry_wf b u p.1 p.2 hb) dm db hwf

theorem upsertAll_wf (db : List Row) (ud : UserData)
    (hwf : DBWf db) : DBWf (upsertAll db ud) := by
  unfold upsertAll
  exact foldl_preserve _
    (fun b p hb => upsertUser_wf b p.1.toIntD p.2 hb) ud db hwf
/-! ## Claim theorems -/

/-- C3: upserting the same (user, date, category, activity) tuple twice
into any well-formed store state is idempotent and leaves exactly one
stored record for that tuple; an upsert never modifies or duplicates
records that already exist (the store only ever grows by a suffix, and
counts of other tuples are unchanged). -/
theorem upsert_idempotent (db : List Row) (u : Int) (d c a : String)
    (hwf : DBWf db) :
    insertRow (insertRow db u d c a) u d c a = insertRow db u d c a ∧
    countTuple (insertRow (insertRow db u d c a) u d c a) (u, d, c, a) = 1 ∧
    (∀ t, t ≠ (u, d, c, a) →
      countTuple (insertRow db u d c a) t = countTuple db t) ∧
    (∃ ext, insertRow db u d c a = db ++ ext) ∧
    DBWf (insertRow db u d c a) := by
  refine ⟨insertRow_idem db u d c a, ?_,
    countTuple_insert_other db u d c a,
    insertRow_extends db u d c a, insertRow_wf db u d c a hwf⟩
  rw [insertRow_idem db u d c a]
  exact countTuple_insert_self db u d c a (hwf _)

theorem upsert_idempotent_witness :
    insertRow (insertRow [] 1 "2024-05-01" "mental" "Read Quran") 1
        "2024-05-01" "mental" "Read Quran" =
      insertRow [] 1 "2024-05-01" "mental" "Read Quran" ∧
    countTuple (insertRow (insertRow [] 1 "2024-05-01" "mental"
        "Read Quran") 1 "2024-05-01" "mental" "Read Quran")
      (1, "2024-05-01", "mental", "Read Quran") = 1 :=
  ⟨(upsert_idempotent [] 1 "2024-05-01" "mental" "Read Quran"
      (fun t => by simp [countTuple])).1,
    (upsert_idempotent [] 1 "2024-05-01" "mental" "Read Quran"
      (fun t => by simp [countTuple])).2.1⟩

/-- C10: a single stored row whose category is not one of the three
fixed identifiers makes the grouping loop of `load_user_data` raise,
so the whole load returns the empty mapping; conversely a non-empty
load result implies every stored row carries a valid category. -/
theorem bad_category_empties_load (rows : List Row) :
    ((∃ r ∈ rows, ¬ validCategory r.category) →
      load_user_data (some rows) = []) ∧
    (load_user_data (some rows) ≠ [] →
      ∀ r ∈ rows, validCategory r.category) := by
  have key : (∃ r ∈ rows, ¬ validCategory r.category) →
      load_user_data (some rows) = [] := by
    intro h
    have hmem : ∃ r ∈ sqlOrder rows, ¬ validCategory r.category := by
      rcases h with ⟨r, hr, hc⟩
      exact ⟨r, ((List.perm_insertionSort rowLE rows).mem_iff).mpr hr, hc⟩
    simp only [load_user_data]
    rw [groupRows_none_of_bad (sqlOrder rows) [] hmem]
    rfl
  refine ⟨key, ?_⟩
  intro hne r hr
  by_contra hc
  exact hne (key ⟨r, hr, hc⟩)

theorem bad_category_empties_load_witness :
    load_user_data (some [⟨1, "2024-05-01", "junk", "Read Quran", 0⟩]) =
      [] :=
  (bad_category_empties_load [⟨1, "2024-05-01", "junk", "Read Quran", 0⟩]).1
    ⟨⟨1, "2024-05-01", "junk", "Read Quran", 0⟩, by simp, by decide⟩

/-- C1 (code bug): `load_user_data` keys its result by the string form
of the user id, while `mycheckins` looks the integer id up, so even for
a user with stored records the command reports that the user has not
checked in, instead of printing the dates. -/
theorem mycheckins_reports_no_history (uid : Int) (rows : List Row)
    (_hhas : ∃ r ∈ rows, r.user_id = uid) :
    mycheckins uid (some rows) = .noCheckins := by
  have hk : lookupA (load_user_data (some rows)) (PyKey.pint uid) = none := by
    apply lookupA_eq_none
    intro p hp
    rcases load_pstr (some rows) p.1 (List.mem_map_of_mem Prod.fst hp)
      with ⟨s, hs⟩
    rw [hs]
    exact fun he => PyKey.noConfusion he
  simp only [mycheckins, hk]

theorem mycheckins_reports_no_history_witness :
    mycheckins 1 (some [⟨1, "2024-05-01", "mental", "Read Quran", 0⟩]) =
      .noCheckins :=
  mycheckins_reports_no_history 1
    [⟨1, "2024-05-01", "mental", "Read Quran", 0⟩]
    ⟨⟨1, "2024-05-01", "mental", "Read Quran", 0⟩, by simp, rfl⟩
/-- Definition following the words of the specification, for
comparison with `activity_mapping` (C2): the numbering the spec
describes enumerates the selected categories as a set, in catalog
order, each category contributing its activities in catalog list
order. -/
def specCatalogMapping (selected : List String) :
    List (Nat × String × String) :=
  numberFrom 1 (selPairs (catKeys.filter (fun k => selected.contains k)))

/-- C2 counterexample: after the valid category reply "2 1" the code
builds the mapping in reply order, which differs from the catalog-order
mapping the claim describes. -/
theorem activity_mapping_not_catalog_order :
    selectCats (parseNums "2 1") = Except.ok ["physical", "mental"] ∧
    activity_mapping ["physical", "mental"] ≠
      specCatalogMapping ["physical", "mental"] := by
  constructor
  · rfl
  · decide

/-- C2 as amended: for a category reply whose parsed numbers are all in
range, the selection keeps the reply order and multiplicity of the
numbers, and the display mapping numbers the resulting (category,
activity) pairs exactly 1..N, where N is the sum of the activity counts
over the reply sequence; the pairs follow the reply order of the
categories, each category contributing its activities in catalog list
order. -/
theorem activity_mapping_follows_reply (nums : List Nat)
    (h : ∀ n ∈ nums, 1 ≤ n ∧ n ≤ catKeys.length) :
    ∃ sel, selectCats nums = .ok sel ∧
      sel = nums.map (fun n => catKeys.getD (n - 1) "") ∧
      (activity_mapping sel).map Prod.fst =
        List.range' 1 (selPairs sel).length ∧
      (activity_mapping sel).map Prod.snd = selPairs sel ∧
      (selPairs sel).length =
        (sel.map (fun k => (activitiesOf k).length)).sum := by
  refine ⟨nums.map (fun n => catKeys.getD (n - 1) ""),
    selectCats_ok_of_valid nums h, rfl, ?_, ?_, ?_⟩
  · exact numberFrom_fst _ 1
  · exact numberFrom_snd _ 1
  · exact selPairs_length _

theorem activity_mapping_follows_reply_witness :
    ∃ sel, selectCats [2, 1] = .ok sel ∧
      sel = [2, 1].map (fun n => catKeys.getD (n - 1) "") ∧
      (activity_mapping sel).map Prod.fst =
        List.range' 1 (selPairs sel).length ∧
      (activity_mapping sel).map Prod.snd = selPairs sel ∧
      (selPairs sel).length =
        (sel.map (fun k => (activitiesOf k).length)).sum :=
  activity_mapping_follows_reply [2, 1] (by decide)

/-- C4 (modelled from the spec, the delete revision being absent from
the sources): `deleteByDate` removes every record of the exact
(user, date) pair and no others, returns the number removed, and is a
harmless no-op returning 0 when no records exist; `deletecheckin`
offers the dates of the user newest-first (strictly descending) and,
on a valid selection, performs exactly a `deleteByDate` of one of
those dates. -/
theorem deleteByDate_removes_all (db : List Row) (uid : Int)
    (date : String) :
    (∀ r ∈ (deleteByDate db uid date).1,
      ¬ (r.user_id = uid ∧ r.checkin_date = date)) ∧
    (∀ r ∈ db, ¬ (r.user_id = uid ∧ r.checkin_date = date) →
      r ∈ (deleteByDate db uid date).1) ∧
    (deleteByDate db uid date).2 =
      (db.filter (fun r =>
        r.user_id == uid && r.checkin_date == date)).length ∧
    ((∀ r ∈ db, ¬ (r.user_id = uid ∧ r.checkin_date = date)) →
      deleteByDate db uid date = (db, 0)) ∧
    (userDates db uid).Pairwise (fun a b : String => b < a) ∧
    (∀ sel res, deletecheckin db uid sel = some res →
      ∃ d, d ∈ userDates db uid ∧ res = deleteByDate db uid d) := by
  refine ⟨?_, ?_, rfl, ?_, ?_, ?_⟩
  · intro r hr hand
    have hb := (List.mem_filter.mp hr).2
    simp [hand.1, hand.2] at hb
  · intro r hr hne
    refine List.mem_filter.mpr ⟨hr, ?_⟩
    by_cases hu : r.user_id = uid
    · by_cases hd : r.checkin_date = date
      · exact absurd ⟨hu, hd⟩ hne
      · simp [hu, hd]
    · simp [hu]
  · intro hnone
    unfold deleteByDate
    have hfl : db.filter (fun r =>
        r.user_id == uid && r.checkin_date == date) = [] := by
      rw [List.filter_eq_nil_iff]
      intro r hr hb
      simp only [Bool.and_eq_true, beq_iff_eq] at hb
      exact hnone r hr hb
    have hfk : db.filter (fun r =>
        !(r.user_id == uid && r.checkin_date == date)) = db := by
      rw [List.filter_eq_self]
      intro r hr
      by_cases hu : r.user_id = uid
      · by_cases hd : r.checkin_date = date
        · exact absurd ⟨hu, hd⟩ (hnone r hr)
        · simp [hu, hd]
      · simp [hu]
    simp only [hfl, hfk, List.length_nil]
  · have hsorted : (userDates db uid).Pairwise
        (fun a b : String => b ≤ a) :=
      List.sorted_insertionSort _ _
    have hnd : (userDates db uid).Nodup :=
      (List.perm_insertionSort _ _).nodup_iff.mpr (List.nodup_dedup _)
    exact (hsorted.and hnd).imp
      (fun hab => lt_of_le_of_ne hab.1 (fun he => hab.2 he.symm))
  · intro sel res h
    unfold deletecheckin at h
    by_cases hs : 1 ≤ sel ∧ sel ≤ (userDates db uid).length
    · rw [if_pos hs] at h
      cases h
      refine ⟨(userDates db uid).getD (sel - 1) "", ?_, rfl⟩
      have hlt : sel - 1 < (userDates db uid).length := by omega
      rw [List.getD_eq_getElem _ _ hlt]
      exact List.getElem_mem hlt
    · rw [if_neg hs] at h
      cases h

theorem deleteByDate_removes_all_witness :
    deleteByDate [] 1 "2024-05-01" = ([], 0) :=
  (deleteByDate_removes_all [] 1 "2024-05-01").2.2.2.1 (by simp)
/-- C6: `load_user_data` is total (never raises): it returns the empty
mapping without a connection or when the grouping raises; the rows it
consumes are exactly the stored ones ordered by date descending with
ties broken by creation order; and any returned grouping has, per user,
strictly descending date keys and duplicate-free activity lists (each
record appears once). -/
theorem loadAll_total_and_grouped (conn : Option (List Row)) :
    (conn = none → load_user_data conn = []) ∧
    (∀ rows, conn = some rows →
      (sqlOrder rows).Perm rows ∧ (sqlOrder rows).Pairwise rowLE) ∧
    (∀ rows, conn = some rows → groupRows [] (sqlOrder rows) = none →
      load_user_data conn = []) ∧
    (∀ p ∈ load_user_data conn,
      ((p.2.map Prod.fst).Pairwise (fun a b : String => b < a)) ∧
      ∀ q ∈ p.2, EntryWF q.2) := by
  refine ⟨?_, ?_, ?_, ?_⟩
  · intro h
    rw [h]
    rfl
  · intro rows _
    exact ⟨List.perm_insertionSort rowLE rows,
      List.sorted_insertionSort rowLE rows⟩
  · intro rows h hg
    rw [h]
    simp [load_user_data, hg]
  · cases conn with
    | none =>
      intro p hp
      simp [load_user_data] at hp
    | some rows =>
      simp only [load_user_data]
      cases hg : groupRows [] (sqlOrder rows) with
      | none =>
        intro p hp
        simp at hp
      | some ud' =>
        simp only [Option.getD_some]
        intro p hp
        have hinv := groupRows_inv (sqlOrder rows) [] ud'
          (List.sorted_insertionSort rowLE rows)
          (by intro q hq; simp at hq) hg
        exact ⟨(hinv p hp).1, (hinv p hp).2.2⟩

theorem loadAll_total_and_grouped_witness :
    load_user_data none = [] ∧
    (sqlOrder [⟨1, "2024-05-01", "mental", "Read Quran", 0⟩]).Perm
      [⟨1, "2024-05-01", "mental", "Read Quran", 0⟩] :=
  ⟨(loadAll_total_and_grouped none).1 rfl,
    ((loadAll_total_and_grouped
      (some [⟨1, "2024-05-01", "mental", "Read Quran", 0⟩])).2.1
      [⟨1, "2024-05-01", "mental", "Read Quran", 0⟩] rfl).1⟩

/-- C7: if no reply arrives at the category step, or the category step
succeeds and no reply arrives at the activity step, the interaction
ends with the timeout notice as its final message, sends exactly one
timeout notice, never reaches the save, and leaves the database
unchanged. -/
theorem timeout_aborts_without_write (uid : Int) (today : String)
    (conn : Option (List Row)) (r1 r2 : Option String)
    (h : r1 = none ∨ (∃ c1 sel, r1 = some c1 ∧
      selectCats (parseNums c1) = .ok sel ∧ sel ≠ [] ∧ r2 = none)) :
    (checkinFlow uid today conn r1 r2).msgs.getLast? =
      some .timeoutNotice ∧
    (checkinFlow uid today conn r1 r2).msgs.count .timeoutNotice = 1 ∧
    (checkinFlow uid today conn r1 r2).saved = none ∧
    (checkinFlow uid today conn r1 r2).db = conn := by
  rcases h with rfl | ⟨c1, sel, rfl, hsel, hne, rfl⟩
  · exact ⟨rfl, rfl, rfl, rfl⟩
  · simp only [checkinFlow, hsel, if_neg hne]
    simp [List.count_cons]

theorem timeout_aborts_without_write_witness :
    (checkinFlow 1 "2024-05-01" (some []) none none).msgs.getLast? =
      some Msg.timeoutNotice ∧
    (checkinFlow 1 "2024-05-01" (some []) none none).saved = none :=
  ⟨(timeout_aborts_without_write 1 "2024-05-01" (some []) none none
      (Or.inl rfl)).1,
    (timeout_aborts_without_write 1 "2024-05-01" (some []) none none
      (Or.inl rfl)).2.2.1⟩

/-- C8: a category reply containing a parsed number outside 1..K
(K = 3 categories) makes the interaction abort with the out-of-range
message naming the first such number; nothing is saved and the
database is untouched. -/
theorem out_of_range_category_aborts (uid : Int) (today : String)
    (conn : Option (List Row)) (c1 : String) (r2 : Option String)
    (hbad : ∃ n ∈ parseNums c1, ¬ (1 ≤ n ∧ n ≤ catKeys.length)) :
    catKeys.length = 3 ∧
    ∃ m, m ∈ parseNums c1 ∧ ¬ (1 ≤ m ∧ m ≤ catKeys.length) ∧
      checkinFlow uid today conn (some c1) r2 =
        ⟨[.categoryPrompt, .outOfRangeCategory m], none, conn⟩ := by
  refine ⟨rfl, ?_⟩
  rcases selectCats_error_of_bad (parseNums c1) hbad with ⟨m, hm, hmb, herr⟩
  refine ⟨m, hm, hmb, ?_⟩
  simp only [checkinFlow, herr]

theorem out_of_range_category_aborts_witness :
    catKeys.length = 3 ∧
    ∃ m, m ∈ parseNums "5" ∧ ¬ (1 ≤ m ∧ m ≤ catKeys.length) ∧
      checkinFlow 1 "2024-05-01" none (some "5") none =
        ⟨[.categoryPrompt, .outOfRangeCategory m], none, none⟩ :=
  out_of_range_category_aborts 1 "2024-05-01" none "5" none (by decide)
/-! ## Well-formedness through the in-memory update of `checkin` -/

/-- Every per-date entry of the structure is duplicate-free. -/
def UDWf (ud : UserData) : Prop := ∀ p ∈ ud, ∀ q ∈ p.2, EntryWF q.2

theorem foldIfKnown_wf (sel : List (String × String)) (e : DateEntry)
    (hwf : EntryWF e) :
    EntryWF (sel.foldl (fun e p => e.addIfKnown p.1 p.2) e) :=
  foldl_preserve _ (fun b a hb => addIfKnown_wf b a.1 a.2 hb) sel e hwf

theorem addSelected_wf (loaded : UserData) (uid : Int) (today : String)
    (sel : List (String × String)) (hwf : UDWf loaded) :
    UDWf (addSelected loaded uid today sel) := by
  unfold addSelected
  intro p hp
  refine updT_values
    (P := fun dm : DateMap => ∀ q ∈ dm, EntryWF q.2) loaded _ _ _
    hwf ?_ ?_ p hp
  · intro q hq
    simp only [updT] at hq
    rcases List.mem_singleton.mp hq with rfl
    exact foldIfKnown_wf sel emptyEntry emptyEntry_wf
  · intro dm hdm q hq
    exact updT_values (P := EntryWF) dm _ _ _ hdm
      (foldIfKnown_wf sel emptyEntry emptyEntry_wf)
      (fun e he => foldIfKnown_wf sel e he) q hq

/-- C9: when an activity reply repeats a valid number, the confirmation
summary keeps one line per occurrence (the list handed to the summary
has the length of the parsed reply, and each occurrence of a number
contributes an occurrence of its line), while the in-memory per-date
entry and the upserted store keep at most a single copy of each
(category, activity). -/
theorem duplicate_activity_selection
    (mapping : List (Nat × String × String)) (nums : List Nat)
    (acts : List (String × String)) (loaded : UserData) (uid : Int)
    (today : String) (db : List Row)
    (hsel : selectActs mapping nums = .ok acts)
    (hload : UDWf loaded) (hdb : DBWf db) :
    acts.length = nums.length ∧
    (∀ n p, lookupNum mapping n = some p →
      nums.count n ≤ (acts.map summaryLine).count (summaryLine p)) ∧
    UDWf (addSelected loaded uid today acts) ∧
    DBWf (upsertAll db (addSelected loaded uid today acts)) := by
  refine ⟨selectActs_length mapping nums acts hsel, ?_,
    addSelected_wf loaded uid today acts hload,
    upsertAll_wf db _ hdb⟩
  intro n p hnp
  calc nums.count n ≤ acts.count p :=
        selectActs_count mapping nums acts hsel n p hnp
    _ ≤ (acts.map summaryLine).count (summaryLine p) :=
        count_map_le summaryLine acts p

theorem duplicate_activity_selection_witness :
    ([("mental", "Prayed Fajr"), ("mental", "Prayed Fajr")] :
      List (String × String)).length = ([1, 1] : List Nat).length :=
  (duplicate_activity_selection (activity_mapping ["mental"]) [1, 1]
    [("mental", "Prayed Fajr"), ("mental", "Prayed Fajr")] [] 1
    "2024-05-01" [] rfl
    (by intro p hp; simp at hp)
    (by intro t; simp [countTuple])).1

/-- C5 (code bug): on a completed check-in with the database
unavailable, `save_user_data` reports failure, yet the interaction
still ends with the success confirmation listing the recorded
activities; no failure message exists on this path, contradicting the
claim that the confirmation is sent only on persistence success. -/
theorem save_failure_still_confirms (uid : Int) (today : String)
    (c1 c2 : String)
    (h : ∃ sel acts, selectCats (parseNums c1) = .ok sel ∧ sel ≠ [] ∧
      selectActs (activity_mapping sel) (parseNums c2) = .ok acts ∧
      acts ≠ []) :
    ∃ acts : List (String × String), acts ≠ [] ∧
      (save_user_data none
        (addSelected (load_user_data none) uid today acts)).1 = false ∧
      (checkinFlow uid today none (some c1) (some c2)).saved =
        some (addSelected (load_user_data none) uid today acts) ∧
      (checkinFlow uid today none (some c1) (some c2)).msgs.getLast? =
        some (.confirmation today (acts.map summaryLine)) := by
  rcases h with ⟨sel, acts, hsel, hsne, hacts, hane⟩
  refine ⟨acts, hane, rfl, ?_, ?_⟩
  · simp only [checkinFlow, hsel, if_neg hsne, hacts, if_neg hane]
  · simp only [checkinFlow, hsel, if_neg hsne, hacts, if_neg hane]
    rfl

theorem save_failure_still_confirms_witness :
    ∃ acts : List (String × String), acts ≠ [] ∧
      (save_user_data none
        (addSelected (load_user_data none) 1 "2024-05-01" acts)).1 =
        false ∧
      (checkinFlow 1 "2024-05-01" none (some "1") (some "1")).saved =
        some (addSelected (load_user_data none) 1 "2024-05-01" acts) ∧
      (checkinFlow 1 "2024-05-01" none (some "1")
          (some "1")).msgs.getLast? =
        some (.confirmation "2024-05-01" (acts.map summaryLine)) :=
  save_failure_still_confirms 1 "2024-05-01" "1" "1"
    ⟨["mental"], [("mental", "Prayed Fajr")], rfl, by simp, rfl, by simp⟩
end LockInBot
